import Mathlib

/-!
Verification of the `ecs-logger` structured-logging adapter.

The development shallowly embeds the crate's core:
* a JSON value model (`Json`, `JsonMap`) mirroring `serde_json::Value` with
  the `preserve_order` map representation (insertion-ordered association list);
* the deep merge `extend_json_map` and the extra-fields store operations
  from `src/extra_fields.rs`;
* the ECS event model from `src/ecs.rs` together with its serde
  serialization shape (optional fields skipped when absent);
* the `format` pipeline from `src/lib.rs` that builds an event, serializes
  it to a JSON map, merges the extra fields and emits the merged document.
-/

/-- JSON values, mirroring `serde_json::Value`.  Numbers are modelled as
integers (the claims under study never depend on float/number fine
structure).  Objects are insertion-ordered association lists, matching the
`preserve_order` feature of `serde_json` used by the crate. -/
inductive Json where
  | null : Json
  | bool (b : Bool) : Json
  | num (n : Int) : Json
  | str (s : String) : Json
  | arr (xs : List Json) : Json
  | obj (m : List (String × Json)) : Json
  deriving Repr

/-- `serde_json::Map<String, Value>` with `preserve_order`. -/
abbrev JsonMap := List (String × Json)

/-- Key lookup in a JSON map: the value of the first entry with the given
key (maps produced by `serde_json` have unique keys). -/
def jlookup : JsonMap → String → Option Json
  | [], _ => none
  | (k, v) :: rest, key => if k = key then some v else jlookup rest key

/-- The list of top-level keys of a JSON map, in order. -/
def jkeys (m : JsonMap) : List String := m.map Prod.fst

/-- Is the value a JSON object? -/
def Json.isObj : Json → Bool
  | .obj _ => true
  | _ => false

mutual
/-- Deep merge `b` into `a` — the body of `extend_json_map` in
`src/extra_fields.rs`: iterate over the entries of `b` in order, folding
each into `a`. -/
def extendJsonMap (a : JsonMap) (b : JsonMap) : JsonMap :=
  match b with
  | [] => a
  | (k, v) :: rest => extendJsonMap (extendEntry a k v) rest
termination_by (sizeOf b, sizeOf a)

/-- Process a single overlay entry `(k, v)`, as the `match` inside the
loop of `extend_json_map`: if `a` has an entry for `k` and both values are
objects, recursively merge; if `a` has an entry for `k` otherwise, replace
its value with `v`; if `a` has no entry for `k`, append `(k, v)`. -/
def extendEntry (a : JsonMap) (k : String) (v : Json) : JsonMap :=
  match a with
  | [] => [(k, v)]
  | (ka, va) :: rest =>
    if ka = k then
      match va, v with
      | Json.obj ai, Json.obj bi => (ka, Json.obj (extendJsonMap ai bi)) :: rest
      | _, _ => (ka, v) :: rest
    else
      (ka, va) :: extendEntry rest k v
termination_by (sizeOf v, sizeOf a)
end

example : extendJsonMap [("a", Json.num 1)] [("a", Json.num 2), ("b", Json.num 3)]
    = [("a", Json.num 2), ("b", Json.num 3)] := by simp [extendJsonMap, extendEntry]

example :
    extendJsonMap [("a", Json.obj [("x", Json.num 1), ("y", Json.num 2)])]
      [("a", Json.obj [("y", Json.num 9)])]
    = [("a", Json.obj [("x", Json.num 1), ("y", Json.num 9)])] := by simp [extendJsonMap, extendEntry]

/-- The value produced at a key processed by the merge, as a function of
the base's previous value at that key and the overlay's value: deep merge
when both are objects, the overlay's value otherwise. -/
def mergeVal : Option Json → Json → Json
  | some (Json.obj ai), Json.obj bi => Json.obj (extendJsonMap ai bi)
  | some _, v => v
  | none, v => v

mutual
/-- Serde-map well-formedness, recursively: keys are unique at every
object level.  Every document produced by `serde_json` satisfies this
(its `Map` type cannot hold duplicate keys). -/
def deepNodup (m : JsonMap) : Bool :=
  match m with
  | [] => true
  | (k, v) :: rest =>
    !(decide (k ∈ jkeys rest)) && deepNodupVal v && deepNodup rest
termination_by sizeOf m

/-- `deepNodup` on the nested map of an object value; `true` on all other
values (the merge never descends into arrays or scalars). -/
def deepNodupVal (v : Json) : Bool :=
  match v with
  | .obj m => deepNodup m
  | _ => true
termination_by sizeOf v
end

/-! ## Extra-fields store (`src/extra_fields.rs`)

The store is a process-wide `RwLock<Option<JsonMap>>`; it is embedded as
an explicit `Option JsonMap` state value threaded through the
operations. -/

/-- Error type of `set_extra_fields`. -/
inductive SetExtraFieldsError where
  | invalidJson (msg : String)
  | notObject
  deriving Repr, DecidableEq

/-- `set_extra_fields` from `src/extra_fields.rs`.  The caller's value is
a black-box `serde::Serialize`; its serialization outcome
(`serde_json::to_value`) is therefore taken as the input: either a
serialization error or a JSON value.  Returns the call's result together
with the new store state. -/
def set_extra_fields (serialized : Except String Json) (store : Option JsonMap) :
    Except SetExtraFieldsError Unit × Option JsonMap :=
  match serialized with
  | .error e => (.error (.invalidJson e), store)
  | .ok (Json.obj m) => (.ok (), some m)
  | .ok _ => (.error .notObject, store)

/-- `clear_extra_fields` from `src/extra_fields.rs`: resets the store. -/
def clear_extra_fields (_store : Option JsonMap) : Option JsonMap := none

/-- `merge_extra_fields` from `src/extra_fields.rs`: returns `json_map`
unchanged when the store is unset, otherwise deep-merges the stored
document into it. -/
def merge_extra_fields (store : Option JsonMap) (json_map : JsonMap) : JsonMap :=
  match store with
  | none => json_map
  | some extra_fields => extendJsonMap json_map extra_fields

/-! ## ECS event model (`src/ecs.rs`) -/

/-- Log severity, from the `log` crate. -/
inductive Level where
  | error | warn | info | debug | trace
  deriving Repr, DecidableEq

/-- `log::Level::as_str`: the upper-case level name. -/
def Level.as_str : Level → String
  | .error => "ERROR"
  | .warn => "WARN"
  | .info => "INFO"
  | .debug => "DEBUG"
  | .trace => "TRACE"

/-- A `log::Record`: the call-site data handed to the logger by the `log`
facade.  `args` is the already-rendered message. -/
structure Record where
  level : Level
  target : String
  args : String
  module_path : Option String
  file : Option String
  line : Option Nat
  deriving Repr

/-- Is the character a path separator, under platform-agnostic splitting. -/
def sepChar (c : Char) : Bool := c == '/' || c == '\\'

/-- Modelled from the spec: the file base-name extraction used by
`Event::new` (the helper is absent from `src/`; only its caller
`format` in `src/lib.rs` is present).  Per §4.1, it derives the final
path segment using platform-agnostic path splitting that handles both
`/`- and `\`-separated inputs: the maximal suffix containing no
separator. -/
def get_file_name (path : String) : String :=
  String.mk ((path.data.reverse.takeWhile (fun c => !sepChar c)).reverse)

example : get_file_name "src/server.rs" = "server.rs" := by decide
example : get_file_name "C:\\app\\main.rs" = "main.rs" := by decide

/-- `ecs.rs`: the schema-revision constant. -/
def ECS_VERSION : String := "1.12.1"

/-- `LogOriginFile` from `src/ecs.rs`. -/
structure LogOriginFile where
  line : Option Nat
  name : Option String
  deriving Repr

/-- `LogOriginRust` from `src/ecs.rs`. -/
structure LogOriginRust where
  target : String
  module_path : Option String
  file_path : Option String
  deriving Repr

/-- `LogOrigin` from `src/ecs.rs`. -/
structure LogOrigin where
  file : LogOriginFile
  rust : LogOriginRust
  deriving Repr

/-- `Event` from `src/ecs.rs`.  The timestamp is carried in its rendered
RFC3339 form (its JSON serialization is a string; the claims never
depend on date arithmetic). -/
structure Event where
  timestamp : String
  log_level : String
  message : String
  ecs_version : String
  log_origin : LogOrigin
  deriving Repr

/-- Modelled from the spec: `Event::new(timestamp, record)` (absent from
`src/`; `src/lib.rs` line 213 calls it, and the `ecs.rs` present in
`src/` is an older revision carrying only `from_log_record`).  Per §4.1,
it is a pure function of the supplied timestamp and the record: level
name, rendered message, schema constant, and the origin fields, with
`file.name` the base name of the source file when present. -/
def Event.new (timestamp : String) (record : Record) : Event :=
  { timestamp := timestamp
    log_level := record.level.as_str
    message := record.args
    ecs_version := ECS_VERSION
    log_origin :=
      { file :=
          { line := record.line
            name := record.file.map get_file_name }
        rust :=
          { target := record.target
            module_path := record.module_path
            file_path := record.file } } }

/-! ## Serde serialization shape of the event

`#[derive(Serialize)]` emits the struct fields in declaration order,
renamed per the `serde(rename = ...)` attributes; fields marked
`#[serde(skip_serializing_if = "Option::is_none")]` are omitted
entirely when absent. -/

/-- One serialized entry for an optional struct field: omitted when the
field is `none` (serde's `skip_serializing_if = "Option::is_none"`). -/
def optEntry (k : String) : Option Json → JsonMap
  | none => []
  | some v => [(k, v)]

/-- Serialization of `LogOriginFile`: `line` then `name`, each omitted
when absent. -/
def LogOriginFile.toJsonMap (f : LogOriginFile) : JsonMap :=
  optEntry "line" (f.line.map (fun n => Json.num n)) ++
    optEntry "name" (f.name.map Json.str)

/-- Serialization of `LogOriginRust`: `target` always, `module_path` and
`file_path` omitted when absent. -/
def LogOriginRust.toJsonMap (r : LogOriginRust) : JsonMap :=
  ("target", Json.str r.target) ::
    (optEntry "module_path" (r.module_path.map Json.str) ++
      optEntry "file_path" (r.file_path.map Json.str))

/-- Serialization of `LogOrigin`. -/
def LogOrigin.toJson (o : LogOrigin) : Json :=
  Json.obj [("file", Json.obj o.file.toJsonMap), ("rust", Json.obj o.rust.toJsonMap)]

/-- The top-level JSON map `serde_json::to_value(event)` produces, with
the serde renames of `src/ecs.rs`. -/
def Event.toJsonMap (e : Event) : JsonMap :=
  [("@timestamp", Json.str e.timestamp),
   ("log.level", Json.str e.log_level),
   ("message", Json.str e.message),
   ("ecs.version", Json.str e.ecs_version),
   ("log.origin", e.log_origin.toJson)]

/-! ## The `format` pipeline (`src/lib.rs`) -/

/-- `format` from `src/lib.rs` (lines 212-228): build the event from the
current timestamp and the record, serialize it to a JSON map, and merge
the extra fields into it.  The ambient clock reading
(`timestamp::get_timestamp()`) and the extra-fields store are explicit
parameters; the returned map is the document written to `buf` as one
line. -/
def format (store : Option JsonMap) (now : String) (record : Record) : JsonMap :=
  merge_extra_fields store (Event.toJsonMap (Event.new now record))

/-- The per-record behaviour of the installed logger: `env_logger` calls
`format` exactly for the records its filter accepts (the filter predicate
is an external collaborator, abstracted as the boolean `accepts`).
Returns the emitted document, or `none` when the record is filtered
out. -/
def logger_log (accepts : Bool) (store : Option JsonMap) (now : String)
    (record : Record) : Option JsonMap :=
  if accepts then some (format store now record) else none

/-! ## Unfolding lemmas for the merge -/

theorem extendEntry_nil (k : String) (v : Json) : extendEntry [] k v = [(k, v)] := by
  simp [extendEntry]

theorem extendEntry_cons_self (ka k : String) (va v : Json) (rest : JsonMap)
    (hk : ka = k) :
    extendEntry ((ka, va) :: rest) k v = (ka, mergeVal (some va) v) :: rest := by
  cases va <;> cases v <;> simp [extendEntry, mergeVal, hk]

theorem extendEntry_cons_ne (ka k : String) (va v : Json) (rest : JsonMap)
    (hk : ¬ ka = k) :
    extendEntry ((ka, va) :: rest) k v = (ka, va) :: extendEntry rest k v := by
  cases va <;> cases v <;> simp [extendEntry, hk]

theorem extendJsonMap_nil (a : JsonMap) : extendJsonMap a [] = a := by
  simp [extendJsonMap]

theorem extendJsonMap_cons (a : JsonMap) (k : String) (v : Json) (rest : JsonMap) :
    extendJsonMap a ((k, v) :: rest) = extendJsonMap (extendEntry a k v) rest := by
  rw [extendJsonMap]

/-! ## Lookup lemmas -/

/-- Processing an overlay entry at key `k` leaves the lookup at any other
key unchanged. -/
theorem jlookup_extendEntry_ne (a : JsonMap) (k key : String) (v : Json)
    (hk : ¬ k = key) : jlookup (extendEntry a k v) key = jlookup a key := by
  induction a with
  | nil => simp [extendEntry_nil, jlookup, hk]
  | cons hd rest ih =>
    obtain ⟨ka, va⟩ := hd
    by_cases hka : ka = k
    · rw [extendEntry_cons_self ka k va v rest hka]
      have : ¬ ka = key := fun h => hk (hka ▸ h)
      simp [jlookup, this]
    · rw [extendEntry_cons_ne ka k va v rest hka]
      by_cases hkey : ka = key
      · simp [jlookup, hkey]
      · simp [jlookup, hkey, ih]

/-- Processing an overlay entry at key `k` sets the lookup at `k` to the
merge of the previous value with the overlay value. -/
theorem jlookup_extendEntry_self (a : JsonMap) (k : String) (v : Json) :
    jlookup (extendEntry a k v) k = some (mergeVal (jlookup a k) v) := by
  induction a with
  | nil => simp [extendEntry_nil, jlookup, mergeVal]
  | cons hd rest ih =>
    obtain ⟨ka, va⟩ := hd
    by_cases hka : ka = k
    · rw [extendEntry_cons_self ka k va v rest hka]
      simp [jlookup, hka]
    · rw [extendEntry_cons_ne ka k va v rest hka]
      simp [jlookup, hka, ih]

/-- Keys absent from the overlay are left untouched by the merge (both
the entry and its position). -/
theorem jlookup_extendJsonMap_not_mem (b : JsonMap) (a : JsonMap) (key : String)
    (h : key ∉ jkeys b) : jlookup (extendJsonMap a b) key = jlookup a key := by
  induction b generalizing a with
  | nil => simp [extendJsonMap_nil]
  | cons hd rest ih =>
    obtain ⟨k, v⟩ := hd
    rw [extendJsonMap_cons]
    have hne : ¬ k = key := by
      intro hkk
      exact h (by simp [jkeys, hkk])
    have hrest : key ∉ jkeys rest := by
      intro hmem
      exact h (by simp [jkeys] at hmem ⊢; exact Or.inr hmem)
    rw [ih (extendEntry a k v) hrest, jlookup_extendEntry_ne a k key v hne]

/-- Lookup characterization of the merge at a key of the overlay: the
result holds the merge of the base's previous value with the overlay's
value (deep merge when both are objects, the overlay's value
otherwise). -/
theorem jlookup_extendJsonMap_mem (b : JsonMap) (a : JsonMap) (key : String)
    (bv : Json) (hb : (jkeys b).Nodup) (hbk : jlookup b key = some bv) :
    jlookup (extendJsonMap a b) key = some (mergeVal (jlookup a key) bv) := by
  induction b generalizing a with
  | nil => simp [jlookup] at hbk
  | cons hd rest ih =>
    obtain ⟨k, v⟩ := hd
    rw [extendJsonMap_cons]
    have hb2 : (jkeys rest).Nodup ∧ k ∉ jkeys rest := by
      simp [jkeys] at hb ⊢
      exact ⟨hb.2, hb.1⟩
    by_cases hk : k = key
    · subst hk
      have hv : bv = v := by
        simp [jlookup] at hbk
        exact hbk.symm
      subst hv
      rw [jlookup_extendJsonMap_not_mem rest (extendEntry a k bv) k hb2.2,
        jlookup_extendEntry_self]
    · have hbk2 : jlookup rest key = some bv := by
        simpa [jlookup, hk] using hbk
      rw [ih (extendEntry a k v) hb2.1 hbk2, jlookup_extendEntry_ne a k key v hk]

/-! ## Key-set lemmas -/

theorem mem_jkeys_extendEntry (a : JsonMap) (k key : String) (v : Json) :
    key ∈ jkeys (extendEntry a k v) ↔ key ∈ jkeys a ∨ key = k := by
  induction a with
  | nil => simp [extendEntry_nil, jkeys]
  | cons hd rest ih =>
    obtain ⟨ka, va⟩ := hd
    by_cases hka : ka = k
    · rw [extendEntry_cons_self ka k va v rest hka]
      subst hka
      simp [jkeys]
      tauto
    · rw [extendEntry_cons_ne ka k va v rest hka]
      simp [jkeys] at ih ⊢
      tauto

theorem mem_jkeys_extendJsonMap (b : JsonMap) (a : JsonMap) (key : String) :
    key ∈ jkeys (extendJsonMap a b) ↔ key ∈ jkeys a ∨ key ∈ jkeys b := by
  induction b generalizing a with
  | nil => simp [extendJsonMap_nil, jkeys]
  | cons hd rest ih =>
    obtain ⟨k, v⟩ := hd
    rw [extendJsonMap_cons]
    rw [ih (extendEntry a k v)]
    rw [mem_jkeys_extendEntry a k key v]
    simp [jkeys]
    tauto

/-! ## Idempotence machinery -/

theorem deepNodup_cons (k : String) (v : Json) (rest : JsonMap) :
    deepNodup ((k, v) :: rest) = true ↔
      k ∉ jkeys rest ∧ deepNodupVal v = true ∧ deepNodup rest = true := by
  rw [deepNodup]
  simp [Bool.and_eq_true]
  tauto

theorem deepNodupVal_obj (m : JsonMap) :
    deepNodupVal (Json.obj m) = true ↔ deepNodup m = true := by
  rw [deepNodupVal]

/-- If the base already holds, at key `k`, a value that absorbs the
overlay value `v` (merging `v` into it changes nothing), then processing
the overlay entry `(k, v)` leaves the base exactly as it is. -/
theorem extendEntry_stable (m : JsonMap) (k : String) (v w : Json)
    (h : jlookup m k = some w) (hw : mergeVal (some w) v = w) :
    extendEntry m k v = m := by
  induction m with
  | nil => simp [jlookup] at h
  | cons hd rest ih =>
    obtain ⟨ka, va⟩ := hd
    by_cases hka : ka = k
    · have hva : va = w := by
        simpa [jlookup, hka] using h
      subst hva
      rw [extendEntry_cons_self ka k va v rest hka, hw]
    · have h2 : jlookup rest k = some w := by
        simpa [jlookup, hka] using h
      rw [extendEntry_cons_ne ka k va v rest hka, ih h2]

/-- Merging a map into a map whose head key does not occur in the overlay
leaves the head entry in place. -/
theorem extendJsonMap_cons_not_mem (b : JsonMap) (k : String) (va : Json)
    (a : JsonMap) (h : k ∉ jkeys b) :
    extendJsonMap ((k, va) :: a) b = (k, va) :: extendJsonMap a b := by
  induction b generalizing a va with
  | nil => simp [extendJsonMap_nil]
  | cons hd rest ih =>
    obtain ⟨kb, vb⟩ := hd
    have hkb : ¬ k = kb := by
      intro hkk
      exact h (by simp [jkeys, hkk])
    have hrest : k ∉ jkeys rest := by
      intro hmem
      exact h (by simp [jkeys] at hmem ⊢; exact Or.inr hmem)
    rw [extendJsonMap_cons, extendJsonMap_cons,
      extendEntry_cons_ne k kb va vb a (fun hh => hkb hh)]
    exact ih va (extendEntry a kb vb) hrest

/-- Merging a well-formed map into itself changes nothing. -/
theorem extendJsonMap_self : ∀ (m : JsonMap), deepNodup m = true →
    extendJsonMap m m = m
  | [], _ => by simp [extendJsonMap_nil]
  | (k, v) :: rest, h => by
    obtain ⟨hk, hv, hrest⟩ := (deepNodup_cons k v rest).mp h
    have hstep : extendEntry ((k, v) :: rest) k v = (k, v) :: rest := by
      rw [extendEntry_cons_self k k v v rest rfl]
      have : mergeVal (some v) v = v := by
        match v with
        | Json.obj vi =>
          have hvi : deepNodup vi = true := (deepNodupVal_obj vi).mp hv
          have := extendJsonMap_self vi hvi
          simp [mergeVal, this]
        | Json.null => simp [mergeVal]
        | Json.bool b => simp [mergeVal]
        | Json.num n => simp [mergeVal]
        | Json.str s => simp [mergeVal]
        | Json.arr xs => simp [mergeVal]
      rw [this]
    rw [extendJsonMap_cons, hstep,
      extendJsonMap_cons_not_mem rest k v rest hk,
      extendJsonMap_self rest hrest]
termination_by m => sizeOf m
decreasing_by all_goals (simp_wf; try omega)

/-- Merging a non-object overlay value always replaces: the result is the
overlay value whatever the base held. -/
theorem mergeVal_not_obj (o : Option Json) (v : Json) (hv : v.isObj = false) :
    mergeVal o v = v := by
  cases o with
  | none => cases v <;> simp [mergeVal]
  | some w => cases w <;> cases v <;> simp [mergeVal, Json.isObj] at hv ⊢

/-- Deep-merge idempotence: merging a well-formed overlay a second time
changes nothing, whatever the base. -/
theorem extendJsonMap_idem : ∀ (b : JsonMap), deepNodup b = true → ∀ (a : JsonMap),
    extendJsonMap (extendJsonMap a b) b = extendJsonMap a b
  | [], _, _ => by simp [extendJsonMap_nil]
  | (k, v) :: rest, h, a => by
    obtain ⟨hk, hv, hrest⟩ := (deepNodup_cons k v rest).mp h
    have hlook : jlookup (extendJsonMap (extendEntry a k v) rest) k
        = some (mergeVal (jlookup a k) v) := by
      rw [jlookup_extendJsonMap_not_mem rest (extendEntry a k v) k hk,
        jlookup_extendEntry_self]
    have habs : mergeVal (some (mergeVal (jlookup a k) v)) v
        = mergeVal (jlookup a k) v := by
      cases v with
      | obj vi =>
        have hvi : deepNodup vi = true := (deepNodupVal_obj vi).mp hv
        cases hak : jlookup a k with
        | none => simp [mergeVal, extendJsonMap_self vi hvi]
        | some w =>
          cases w with
          | obj ai => simp [mergeVal, extendJsonMap_idem vi hvi ai]
          | null => simp [mergeVal, extendJsonMap_self vi hvi]
          | bool b2 => simp [mergeVal, extendJsonMap_self vi hvi]
          | num n2 => simp [mergeVal, extendJsonMap_self vi hvi]
          | str s2 => simp [mergeVal, extendJsonMap_self vi hvi]
          | arr x2 => simp [mergeVal, extendJsonMap_self vi hvi]
      | null => simp [mergeVal_not_obj, Json.isObj]
      | bool b2 => simp [mergeVal_not_obj, Json.isObj]
      | num n2 => simp [mergeVal_not_obj, Json.isObj]
      | str s2 => simp [mergeVal_not_obj, Json.isObj]
      | arr x2 => simp [mergeVal_not_obj, Json.isObj]
    have hstable : extendEntry (extendJsonMap (extendEntry a k v) rest) k v
        = extendJsonMap (extendEntry a k v) rest :=
      extendEntry_stable _ k v (mergeVal (jlookup a k) v) hlook habs
    rw [extendJsonMap_cons, extendJsonMap_cons, hstable]
    exact extendJsonMap_idem rest hrest (extendEntry a k v)
termination_by b => sizeOf b
decreasing_by all_goals (subst_vars; simp_wf; try omega)

/-! ## Base-name extraction lemmas -/

theorem takeWhile_append_stop (p : Char → Bool) (l1 : List Char) (x : Char)
    (l2 : List Char) (h1 : ∀ c ∈ l1, p c = true) (hx : p x = false) :
    (l1 ++ x :: l2).takeWhile p = l1 := by
  induction l1 with
  | nil => simp [List.takeWhile_cons, hx]
  | cons c cs ih =>
    have hc : p c = true := h1 c (by simp)
    have hcs : ∀ d ∈ cs, p d = true := fun d hd => h1 d (by simp [hd])
    simp [List.takeWhile_cons, hc, ih hcs]

/-- The spec-modelled base-name extraction returns the final path
segment: everything after the last separator, for either separator
convention. -/
theorem get_file_name_last_segment (pre base : List Char) (sep : Char)
    (hsep : sepChar sep = true) (hbase : ∀ c ∈ base, sepChar c = false) :
    get_file_name (String.mk (pre ++ sep :: base)) = String.mk base := by
  unfold get_file_name
  congr 1
  have hrev : (pre ++ sep :: base).reverse = base.reverse ++ sep :: pre.reverse := by
    simp
  rw [show (String.mk (pre ++ sep :: base)).data = pre ++ sep :: base from rfl, hrev,
    takeWhile_append_stop _ base.reverse sep pre.reverse
      (fun c hc => by simp [List.mem_reverse] at hc; simp [hbase c hc])
      (by simp [hsep]),
    List.reverse_reverse]

/-! ## Shared concrete data for witnesses -/

/-- The call-site record of the crate's own tests (scenario A of the
spec). -/
def exampleRecord : Record :=
  { level := Level.error
    target := "myApp"
    args := "Error!"
    module_path := some "my_app::server"
    file := some "src/server.rs"
    line := some 144 }

/-- A small extra-fields document (`{"a":1,"b":{"c":2}}`, scenario B of
the spec). -/
def exampleExtra : JsonMap :=
  [("a", Json.num 1), ("b", Json.obj [("c", Json.num 2)])]

/-! ## The claims -/

/-- C1: for every log call the filter accepts, the logger merges the
extra-fields store contents into the serialized event document (via
`merge_extra_fields`) before the document is written, so the emitted
document carries every top-level key of the stored extra-fields
document. -/
theorem claim_C1_accepted_log_merges_extra_fields
    (store : Option JsonMap) (now : String) (record : Record)
    (extra doc : JsonMap) (hs : store = some extra)
    (hdoc : logger_log true store now record = some doc) :
    doc = merge_extra_fields store (Event.toJsonMap (Event.new now record)) ∧
      ∀ k ∈ jkeys extra, k ∈ jkeys doc := by
  have hdoc2 : doc = format store now record := by
    simpa [logger_log] using hdoc.symm
  subst hdoc2
  refine ⟨rfl, fun k hk => ?_⟩
  subst hs
  simp only [format, merge_extra_fields]
  exact (mem_jkeys_extendJsonMap extra _ k).mpr (Or.inr hk)

theorem claim_C1_witness :
    format (some exampleExtra) "2023-03-31T09:25:06.576136800Z" exampleRecord
        = merge_extra_fields (some exampleExtra)
            (Event.toJsonMap
              (Event.new "2023-03-31T09:25:06.576136800Z" exampleRecord)) ∧
      ∀ k ∈ jkeys exampleExtra,
        k ∈ jkeys (format (some exampleExtra)
          "2023-03-31T09:25:06.576136800Z" exampleRecord) :=
  claim_C1_accepted_log_merges_extra_fields (some exampleExtra)
    "2023-03-31T09:25:06.576136800Z" exampleRecord exampleExtra _ rfl rfl

/-- C2: at any key present in both the base and the overlay where at
least one of the two values is not a JSON object, the merged result
carries the overlay's value in its entirety. -/
theorem claim_C2_overlay_replaces_non_objects
    (a b : JsonMap) (k : String) (av bv : Json)
    (hb : (jkeys b).Nodup) (ha : jlookup a k = some av)
    (hbv : jlookup b k = some bv)
    (hno : ¬(av.isObj = true ∧ bv.isObj = true)) :
    jlookup (extendJsonMap a b) k = some bv := by
  rw [jlookup_extendJsonMap_mem b a k bv hb hbv, ha]
  congr 1
  cases av <;> cases bv <;> simp_all [Json.isObj, mergeVal]

theorem claim_C2_witness :
    (jkeys [("x", Json.num 2)]).Nodup ∧
      jlookup (extendJsonMap [("x", Json.num 1)] [("x", Json.num 2)]) "x"
        = some (Json.num 2) :=
  ⟨by decide,
    claim_C2_overlay_replaces_non_objects [("x", Json.num 1)] [("x", Json.num 2)]
      "x" (Json.num 1) (Json.num 2) (by decide) rfl rfl (by decide)⟩

/-- C3: at any key where both the base's and the overlay's values are
objects, the merge combines the two nested objects recursively with the
same precedence rule instead of replacing wholesale, and nested keys
present only in the base are left untouched. -/
theorem claim_C3_nested_objects_merge_recursively
    (a b ai bi : JsonMap) (k : String)
    (hb : (jkeys b).Nodup) (ha : jlookup a k = some (Json.obj ai))
    (hbv : jlookup b k = some (Json.obj bi)) :
    jlookup (extendJsonMap a b) k = some (Json.obj (extendJsonMap ai bi)) ∧
      ∀ k2, k2 ∉ jkeys bi → jlookup (extendJsonMap ai bi) k2 = jlookup ai k2 := by
  constructor
  · rw [jlookup_extendJsonMap_mem b a k _ hb hbv, ha]
    simp [mergeVal]
  · exact fun k2 h2 => jlookup_extendJsonMap_not_mem bi ai k2 h2

theorem claim_C3_witness :
    jlookup
        (extendJsonMap [("o", Json.obj [("x", Json.num 1), ("y", Json.num 2)])]
          [("o", Json.obj [("y", Json.num 9)])]) "o"
      = some (Json.obj
          (extendJsonMap [("x", Json.num 1), ("y", Json.num 2)]
            [("y", Json.num 9)])) ∧
    ∀ k2, k2 ∉ jkeys [("y", Json.num 9)] →
      jlookup (extendJsonMap [("x", Json.num 1), ("y", Json.num 2)]
          [("y", Json.num 9)]) k2
        = jlookup [("x", Json.num 1), ("y", Json.num 2)] k2 :=
  claim_C3_nested_objects_merge_recursively
    [("o", Json.obj [("x", Json.num 1), ("y", Json.num 2)])]
    [("o", Json.obj [("y", Json.num 9)])]
    [("x", Json.num 1), ("y", Json.num 2)] [("y", Json.num 9)] "o"
    (by decide) rfl rfl

/-- C4: `set_extra_fields` returns a serialization error when the value
cannot be serialized and a not-an-object error when the serialized form
is not a JSON object; in both error cases the store is left exactly in
its prior state, and only on success is the stored document replaced. -/
theorem claim_C4_set_extra_fields_errors_leave_store
    (e : String) (j : Json) (m : JsonMap) (store : Option JsonMap) :
    set_extra_fields (Except.error e) store
        = (Except.error (SetExtraFieldsError.invalidJson e), store) ∧
      (j.isObj = false →
        set_extra_fields (Except.ok j) store
          = (Except.error SetExtraFieldsError.notObject, store)) ∧
      set_extra_fields (Except.ok (Json.obj m)) store = (Except.ok (), some m) := by
  refine ⟨rfl, fun hj => ?_, rfl⟩
  cases j with
  | obj m2 => simp [Json.isObj] at hj
  | null => rfl
  | bool b2 => rfl
  | num n2 => rfl
  | str s2 => rfl
  | arr x2 => rfl

theorem claim_C4_witness :
    Json.isObj (Json.num 7) = false ∧
      set_extra_fields (Except.ok (Json.num 7)) (some exampleExtra)
        = (Except.error SetExtraFieldsError.notObject, some exampleExtra) :=
  ⟨by decide,
    (claim_C4_set_extra_fields_errors_leave_store "oops" (Json.num 7) []
      (some exampleExtra)).2.1 (by decide)⟩

/-- C5: the event construction is a pure function of its explicit inputs
including the supplied timestamp parameter: it reads no ambient state, so
two calls with identical inputs produce identical events, and the event's
timestamp is exactly the supplied parameter. -/
theorem claim_C5_event_new_is_pure
    (ts1 ts2 : String) (r1 r2 : Record) (hts : ts1 = ts2) (hr : r1 = r2) :
    Event.new ts1 r1 = Event.new ts2 r2 ∧ (Event.new ts1 r1).timestamp = ts1 := by
  subst hts
  subst hr
  exact ⟨rfl, rfl⟩

theorem claim_C5_witness :
    Event.new "2023-03-31T09:25:06.576136800Z" exampleRecord
        = Event.new "2023-03-31T09:25:06.576136800Z" exampleRecord ∧
      (Event.new "2023-03-31T09:25:06.576136800Z" exampleRecord).timestamp
        = "2023-03-31T09:25:06.576136800Z" :=
  claim_C5_event_new_is_pure "2023-03-31T09:25:06.576136800Z"
    "2023-03-31T09:25:06.576136800Z" exampleRecord exampleRecord rfl rfl

/-- C6: for every present source-file path, the event's `file.name` is
derived as the final path segment using platform-agnostic splitting: a
path of the form `pre ++ sep ++ base` with `sep` either `/` or `\` and
`base` separator-free yields `base`, on any platform. -/
theorem claim_C6_file_name_is_final_path_segment
    (pre base : List Char) (sep : Char) (ts : String) (record : Record)
    (hsep : sepChar sep = true) (hbase : ∀ c ∈ base, sepChar c = false)
    (hfile : record.file = some (String.mk (pre ++ sep :: base))) :
    (Event.new ts record).log_origin.file.name = some (String.mk base) := by
  simp [Event.new, hfile, get_file_name_last_segment pre base sep hsep hbase]

theorem claim_C6_witness :
    sepChar '\\' = true ∧
      (Event.new "t"
          { exampleRecord with file := some "src\\server.rs" }).log_origin.file.name
        = some (String.mk ['s', 'e', 'r', 'v', 'e', 'r', '.', 'r', 's']) :=
  ⟨by decide,
    claim_C6_file_name_is_final_path_segment ['s', 'r', 'c']
      ['s', 'e', 'r', 'v', 'e', 'r', '.', 'r', 's'] '\\' "t"
      { exampleRecord with file := some "src\\server.rs" }
      (by decide) (by decide) (by decide)⟩

example : get_file_name "a/b\\c/d.rs" = "d.rs" := by decide

/-- C7: each optional field of the serialized event (`file.line`,
`file.name`, `module_path`, `file_path`) that is absent is omitted
entirely from the serialized JSON — the key does not appear, so no null
is ever emitted for it — while every present field appears with its
exact value (and `target` always appears). -/
theorem claim_C7_absent_optionals_are_omitted (e : Event) :
    jlookup e.log_origin.file.toJsonMap "line"
        = e.log_origin.file.line.map (fun n => Json.num n) ∧
      jlookup e.log_origin.file.toJsonMap "name"
        = e.log_origin.file.name.map Json.str ∧
      jlookup e.log_origin.rust.toJsonMap "target"
        = some (Json.str e.log_origin.rust.target) ∧
      jlookup e.log_origin.rust.toJsonMap "module_path"
        = e.log_origin.rust.module_path.map Json.str ∧
      jlookup e.log_origin.rust.toJsonMap "file_path"
        = e.log_origin.rust.file_path.map Json.str ∧
      ∀ k j, (k, j) ∈ e.log_origin.file.toJsonMap ++ e.log_origin.rust.toJsonMap →
        j ≠ Json.null := by
  obtain ⟨ts, lvl, msg, ver, ⟨⟨oline, oname⟩, ⟨tgt, omp, ofp⟩⟩⟩ := e
  refine ⟨?_, ?_, ?_, ?_, ?_, ?_⟩
  · cases oline <;> cases oname <;>
      simp [LogOriginFile.toJsonMap, optEntry, jlookup]
  · cases oline <;> cases oname <;>
      simp [LogOriginFile.toJsonMap, optEntry, jlookup]
  · cases omp <;> cases ofp <;>
      simp [LogOriginRust.toJsonMap, optEntry, jlookup]
  · cases omp <;> cases ofp <;>
      simp [LogOriginRust.toJsonMap, optEntry, jlookup]
  · cases omp <;> cases ofp <;>
      simp [LogOriginRust.toJsonMap, optEntry, jlookup]
  · intro k j hmem
    cases oline <;> cases oname <;> cases omp <;> cases ofp <;>
      simp [LogOriginFile.toJsonMap, LogOriginRust.toJsonMap, optEntry] at hmem <;>
      rcases hmem with _ | _ | _ | _ | _ <;> simp_all

theorem claim_C7_witness :
    jlookup (Event.new "t" exampleRecord).log_origin.file.toJsonMap "line"
        = ((Event.new "t" exampleRecord).log_origin.file.line.map
            (fun n => Json.num n)) ∧
      jlookup (Event.new "t" exampleRecord).log_origin.file.toJsonMap "name"
        = (Event.new "t" exampleRecord).log_origin.file.name.map Json.str ∧
      jlookup (Event.new "t" exampleRecord).log_origin.rust.toJsonMap "target"
        = some (Json.str (Event.new "t" exampleRecord).log_origin.rust.target) ∧
      jlookup (Event.new "t" exampleRecord).log_origin.rust.toJsonMap "module_path"
        = (Event.new "t" exampleRecord).log_origin.rust.module_path.map Json.str ∧
      jlookup (Event.new "t" exampleRecord).log_origin.rust.toJsonMap "file_path"
        = (Event.new "t" exampleRecord).log_origin.rust.file_path.map Json.str ∧
      ∀ k j, (k, j) ∈ (Event.new "t" exampleRecord).log_origin.file.toJsonMap ++
          (Event.new "t" exampleRecord).log_origin.rust.toJsonMap →
        j ≠ Json.null :=
  claim_C7_absent_optionals_are_omitted (Event.new "t" exampleRecord)

/-- C8: deep merge is idempotent: merging the stored overlay into the
already-merged result yields the same document as merging it once,
for any well-formed (serde-shaped, duplicate-free) overlay. -/
theorem claim_C8_merge_is_idempotent (base overlay : JsonMap)
    (hov : deepNodup overlay = true) :
    merge_extra_fields (some overlay) (merge_extra_fields (some overlay) base)
      = merge_extra_fields (some overlay) base := by
  simp only [merge_extra_fields]
  exact extendJsonMap_idem overlay hov base

theorem claim_C8_witness :
    deepNodup exampleExtra = true ∧
      merge_extra_fields (some exampleExtra)
          (merge_extra_fields (some exampleExtra) [("a", Json.num 5)])
        = merge_extra_fields (some exampleExtra) [("a", Json.num 5)] :=
  ⟨by simp [exampleExtra, deepNodup, deepNodupVal, jkeys],
    claim_C8_merge_is_idempotent [("a", Json.num 5)] exampleExtra
      (by simp [exampleExtra, deepNodup, deepNodupVal, jkeys])⟩

/-- C9: extra fields take precedence even over the standard event
fields: a top-level key of the stored document that collides with a
schema key is carried with the extra-fields value in the emitted
document — replaced outright, or deep-merged into the event's own value
when both values at the key are objects. -/
theorem claim_C9_extra_fields_override_schema_keys
    (store : Option JsonMap) (extra : JsonMap) (now : String) (record : Record)
    (k : String) (bv : Json) (hs : store = some extra)
    (hb : (jkeys extra).Nodup) (hk : jlookup extra k = some bv) :
    jlookup (format store now record) k
        = some (mergeVal (jlookup (Event.toJsonMap (Event.new now record)) k) bv) ∧
      (bv.isObj = false → jlookup (format store now record) k = some bv) := by
  subst hs
  have h1 : jlookup (format (some extra) now record) k
      = some (mergeVal (jlookup (Event.toJsonMap (Event.new now record)) k) bv) := by
    simp only [format, merge_extra_fields]
    exact jlookup_extendJsonMap_mem extra _ k bv hb hk
  exact ⟨h1, fun hbv => by rw [h1, mergeVal_not_obj _ bv hbv]⟩

theorem claim_C9_witness :
    (jkeys [("message", Json.str "overridden")]).Nodup ∧
      jlookup
          (format (some [("message", Json.str "overridden")]) "t" exampleRecord)
          "message"
        = some (Json.str "overridden") :=
  ⟨by decide,
    (claim_C9_extra_fields_override_schema_keys
      (some [("message", Json.str "overridden")])
      [("message", Json.str "overridden")] "t" exampleRecord "message"
      (Json.str "overridden") rfl (by decide) rfl).2 (by decide)⟩

/-- C10: the recursive deep merge terminates on every pair of finite
documents (in this embedding `extendJsonMap` is accepted by Lean's
termination checker, recursing only into strictly smaller overlay
sub-objects), always returning a result whose key set is exactly the
base's keys together with the overlay's. -/
theorem claim_C10_merge_total_with_bounded_keys (a b : JsonMap) :
    ∃ r, extendJsonMap a b = r ∧
      (∀ k ∈ jkeys a, k ∈ jkeys r) ∧
      (∀ k ∈ jkeys b, k ∈ jkeys r) ∧
      (∀ k ∈ jkeys r, k ∈ jkeys a ∨ k ∈ jkeys b) :=
  ⟨extendJsonMap a b, rfl,
    fun k hk => (mem_jkeys_extendJsonMap b a k).mpr (Or.inl hk),
    fun k hk => (mem_jkeys_extendJsonMap b a k).mpr (Or.inr hk),
    fun k hk => (mem_jkeys_extendJsonMap b a k).mp hk⟩

theorem claim_C10_witness :
    ∃ r, extendJsonMap [("a", Json.num 5)] exampleExtra = r ∧
      (∀ k ∈ jkeys [("a", Json.num 5)], k ∈ jkeys r) ∧
      (∀ k ∈ jkeys exampleExtra, k ∈ jkeys r) ∧
      (∀ k ∈ jkeys r, k ∈ jkeys [("a", Json.num 5)] ∨ k ∈ jkeys exampleExtra) :=
  claim_C10_merge_total_with_bounded_keys [("a", Json.num 5)] exampleExtra
